import Mathlib

/-!
# Verification of `zquantum.core.bitstring_distribution`

Shallow embedding of `src/python/zquantum/core/bitstring_distribution.py`.

A Python dictionary from bitstring keys to float weights is modelled as an
association list `List (String × ℚ)` with the keys in insertion order; float
arithmetic is modelled by exact rational arithmetic (and real arithmetic where
a logarithm is involved).  Python exceptions are modelled by `Except ZErr`,
with one constructor per failure kind of the spec's error taxonomy plus
`indexError` for a raw Python `IndexError`.
-/

namespace ZQuantum

instance exceptDecEq {ε α : Type} [DecidableEq ε] [DecidableEq α] :
    DecidableEq (Except ε α) := fun a b =>
  match a, b with
  | .error e, .error f =>
      if h : e = f then .isTrue (by rw [h])
      else .isFalse (fun hc => h (by injection hc))
  | .error _, .ok _ => .isFalse (fun hc => Except.noConfusion hc)
  | .ok _, .error _ => .isFalse (fun hc => Except.noConfusion hc)
  | .ok x, .ok y =>
      if h : x = y then .isTrue (by rw [h])
      else .isFalse (fun hc => h (by injection hc))

/-- A Python dict from bitstring to weight, in insertion order. -/
abbrev DistDict := List (String × ℚ)

/-- The failure kinds: the spec taxonomy (§7) plus a raw Python `IndexError`.
`emptyDistribution` and `degenerateDistribution` are the two `ValueError`s of
`normalize_bitstring_distribution`; `invalidDistribution` is the `RuntimeError`
of `BitstringDistribution.__init__`; the last four are the errors of
`evaluate_distribution_distance`. -/
inductive ZErr where
  | indexError
  | invalidDistribution
  | emptyDistribution
  | degenerateDistribution
  | typeMismatch
  | domainMismatch
  | normalizationMismatch
  | unsupportedStrategy
  deriving DecidableEq, Repr

/-- `sum(input_dict.values())`. -/
def sumValues (d : DistDict) : ℚ := (d.map Prod.snd).sum

/-- `input_dict.get(key, 0)`: value at the first matching key, default `0`. -/
def dget (d : DistDict) (k : String) : ℚ :=
  match d.find? (fun p => p.1 == k) with
  | some p => p.2
  | none => 0

/-- `is_non_negative`: `all(value >= 0 for value in input_dict.values())`. -/
def is_non_negative (d : DistDict) : Bool :=
  d.all (fun p => decide (0 ≤ p.2))

/-- `is_key_length_fixed`: reads `len(list(input_dict.keys())[0])`, which
raises `IndexError` on an empty dict, then checks
`all(len(key) == key_length for key in input_dict.keys())`. -/
def is_key_length_fixed (d : DistDict) : Except ZErr Bool :=
  match d with
  | [] => .error .indexError
  | (k₀, _) :: _ => .ok (d.all (fun p => p.1.length == k₀.length))

/-- `are_keys_binary_strings`:
`all(not any(char not in '10' for char in key) for key in input_dict.keys())`. -/
def are_keys_binary_strings (d : DistDict) : Bool :=
  d.all (fun p => p.1.data.all (fun c => c == '1' || c == '0'))

/-- `is_bitstring_distribution`: the conjunction
`is_non_negative and is_key_length_fixed and are_keys_binary_strings`,
with Python's short-circuit `and` (so the `IndexError` of
`is_key_length_fixed` surfaces only when `is_non_negative` was true). -/
def is_bitstring_distribution (d : DistDict) : Except ZErr Bool :=
  if is_non_negative d then
    match is_key_length_fixed d with
    | .error e => .error e
    | .ok b => .ok (b && are_keys_binary_strings d)
  else .ok false

/-- `math.isclose(a, b)` with the default tolerances
`rel_tol=1e-9, abs_tol=0.0`: `|a-b| <= max(rel_tol*max(|a|,|b|), abs_tol)`. -/
def isclose (a b : ℚ) : Bool :=
  decide (|a - b| ≤ 1 / 10 ^ 9 * max |a| |b|)

/-- `is_normalized`: `math.isclose(sum(input_dict.values()), 1)`. -/
def is_normalized (d : DistDict) : Bool :=
  isclose (sumValues d) 1

/-- `sys.float_info.min`, the smallest positive normalized double, `2^(-1022)`. -/
def float_info_min : ℚ := 1 / 2 ^ 1022

/-- `normalize_bitstring_distribution`: raises on a zero sum
(`emptyDistribution`) or a positive sum below `sys.float_info.min`
(`degenerateDistribution`), is the identity on a sum of exactly `1`, and
otherwise multiplies every value by `1/norm`. -/
def normalize_bitstring_distribution (d : DistDict) : Except ZErr DistDict :=
  let norm := sumValues d
  if norm = 0 then .error .emptyDistribution
  else if 0 < norm ∧ norm < float_info_min then .error .degenerateDistribution
  else if norm = 1 then .ok d
  else .ok (d.map (fun p => (p.1, p.2 * (1 / norm))))

/-- `BitstringDistribution.__init__(input_dict, normalize)`: accept the dict
only if `is_bitstring_distribution` holds (propagating its `IndexError`),
store it as-is when already normalized, normalize it when `normalize` is
true (propagating the normalization errors), and otherwise store it as-is
with a non-fatal warning.  The stored `distribution_dict` is returned. -/
def bitstringDistributionInit (input_dict : DistDict) (normalize : Bool) :
    Except ZErr DistDict :=
  match is_bitstring_distribution input_dict with
  | .error e => .error e
  | .ok true =>
      if is_normalized input_dict then .ok input_dict
      else if normalize then normalize_bitstring_distribution input_dict
      else .ok input_dict
  | .ok false => .error .invalidDistribution

/-- `BitstringDistribution.get_qubits_number`: `len(list(keys)[0])`; entities
are validated non-empty at construction, so the `[]` case is dead code. -/
def get_qubits_number (d : DistDict) : ℕ :=
  match d with
  | [] => 0
  | (k₀, _) :: _ => k₀.length

/-- Python dict assignment `d[k] = v`: overwrite the value when `k` is
present, otherwise append the pair at the end (insertion order). -/
def dictInsert (d : DistDict) (k : String) (v : ℚ) : DistDict :=
  if d.any (fun p => p.1 == k) then
    d.map (fun p => if p.1 == k then (k, v) else p)
  else d ++ [(k, v)]

/-- Building a dict by successive assignments from an empty dict. -/
def fromPairs (l : List (String × ℚ)) : DistDict :=
  l.foldl (fun d p => dictInsert d p.1 p.2) []

/-- `format(state, 'b')`: minimal-length binary rendering of `state`, most
significant bit first, `"0"` for zero (`Nat.toDigits 2` has exactly this
behavior). -/
def format_b (n : ℕ) : String :=
  String.mk (Nat.toDigits 2 n)

/-- The `while` loop of `create_bitstring_distribution_from_probability_distribution`:
`while len(bitstring) < np.sqrt(len(prob_distribution)): bitstring = '0' + bitstring`.
For a natural length `l`, the float comparison `l < sqrt n` holds exactly when
`l * l < n`, which is the loop guard used here.  The loop is run on a fuel of
`gas` iterations; `padBitstring` supplies `gas = n`, which
`padBitstring_exits` proves is never exhausted before the guard fails. -/
def padLoop (n : ℕ) : ℕ → String → String
  | 0, s => s
  | gas + 1, s => if s.length * s.length < n then padLoop n gas ("0" ++ s) else s

/-- The padding loop on state `s`: prepend `'0'` until the length reaches
`sqrt n`. -/
def padBitstring (n : ℕ) (s : String) : String :=
  padLoop n n s

/-- `bitstring[::-1]`. -/
def strReverse (s : String) : String := String.mk s.data.reverse

/-- `create_bitstring_distribution_from_probability_distribution`: for each
state in `range(len(probs))`, render the state in binary, left-pad with `'0'`
while shorter than `sqrt(len(probs))`, reverse, and assign the state's
probability; then construct the `BitstringDistribution` (default
`normalize=True`). -/
def create_bitstring_distribution_from_probability_distribution
    (prob_distribution : List ℚ) : Except ZErr DistDict :=
  bitstringDistributionInit
    (fromPairs (prob_distribution.enum.map (fun sp =>
      (strReverse (padBitstring prob_distribution.length (format_b sp.1)), sp.2))))
    true

/-- Modelled from the spec: `convert_tuples_to_bitstrings` lives in
`zquantum.core.utils`, which is not part of the source tree; the spec (§4.3)
says each sample, a tuple of 0/1 integers, is rendered to its bitstring form
(digit `0` to character `'0'`, digit `1` to character `'1'`).  This renders
one tuple. -/
def tuple_to_bitstring (t : List ℕ) : String :=
  String.mk (t.map (fun b => if b = 0 then '0' else '1'))

/-- Modelled from the spec: `convert_tuples_to_bitstrings` renders every
sampled tuple to its bitstring form, in order. -/
def convert_tuples_to_bitstrings (measurements : List (List ℕ)) : List String :=
  measurements.map tuple_to_bitstring

/-- The distinct elements of `l` not in `seen`, in first-occurrence order. -/
def firstOccurrencesAux : List String → List String → List String
  | [], _ => []
  | x :: xs, seen =>
      if x ∈ seen then firstOccurrencesAux xs seen
      else x :: firstOccurrencesAux xs (x :: seen)

/-- The distinct elements of a list in first-occurrence order: the key order
of a Python dict built from `Counter(l)`. -/
def firstOccurrences (l : List String) : List String :=
  firstOccurrencesAux l []

/-- `dict(Counter(l))`: each distinct element of `l`, in first-occurrence
order, mapped to its multiplicity in `l`. -/
def counterDict (l : List String) : DistDict :=
  (firstOccurrences l).map (fun k => (k, (l.count k : ℚ)))

/-- `create_bitstring_distribution_from_measurements`: render the sample
tuples to bitstrings, tally them with `Counter`, and construct the
`BitstringDistribution` (default `normalize=True`). -/
def create_bitstring_distribution_from_measurements
    (measurements : List (List ℕ)) : Except ZErr DistDict :=
  bitstringDistributionInit (counterDict (convert_tuples_to_bitstrings measurements)) true

/-- `set(target_keys).union(measured_keys)`, enumerated as a duplicate-free
list; the iteration order of a Python set is unspecified and the only use is
a commutative sum, so any enumeration is faithful. -/
def all_keys (t m : DistDict) : List String :=
  ((t.map Prod.fst) ++ (m.map Prod.fst)).dedup

/-- `compute_clipped_negative_log_likelihood`: starting from `value = 0.`,
add `target.get(k, 0) * log(max(epsilon, measured.get(k, 0)))` for every key
in the union of the key sets, and return `-value`. -/
noncomputable def compute_clipped_negative_log_likelihood
    (target_distr measured_distr : DistDict) (epsilon : ℝ) : ℝ :=
  -((all_keys target_distr measured_distr).foldl
      (fun value k =>
        value + (dget target_distr k : ℝ) * Real.log (max epsilon (dget measured_distr k : ℝ)))
      0)

/-- A Python argument that is either a `BitstringDistribution` entity or
some object of another type (for the `isinstance` check). -/
inductive PyObj where
  | bsd (d : DistDict)
  | nonBsd
  deriving DecidableEq

/-- `evaluate_distribution_distance`: `TypeError` unless both arguments are
`BitstringDistribution`s, `RuntimeError` on differing qubit numbers, then on
differing normalization status, then dispatch on the measure name, with an
unrecognized name a `RuntimeError`. -/
noncomputable def evaluate_distribution_distance
    (target_distr measured_distr : PyObj) (distance_measure : String) (epsilon : ℝ) :
    Except ZErr ℝ :=
  match target_distr, measured_distr with
  | .bsd t, .bsd m =>
      if get_qubits_number t ≠ get_qubits_number m then .error .domainMismatch
      else if is_normalized t ≠ is_normalized m then .error .normalizationMismatch
      else if distance_measure = "clipped_log_likelihood" then
        .ok (compute_clipped_negative_log_likelihood t m epsilon)
      else .error .unsupportedStrategy
  | _, _ => .error .typeMismatch

/-! ## Supporting lemmas -/

theorem padLoop_exits (n : ℕ) : ∀ (gas : ℕ) (s : String), n ≤ gas + s.length →
    ¬ (padLoop n gas s).length * (padLoop n gas s).length < n := by
  intro gas
  induction gas with
  | zero =>
      intro s hs
      simp only [padLoop]
      rcases Nat.eq_zero_or_pos s.length with h0 | h1
      · omega
      · have : s.length ≤ s.length * s.length := Nat.le_mul_of_pos_left _ h1
        omega
  | succ gas ih =>
      intro s hs
      simp only [padLoop]
      split
      · refine ih ("0" ++ s) ?_
        have h0 : ("0" : String).length = 1 := rfl
        rw [String.length_append, h0]
        omega
      · assumption

/-- The fuel `n` given to `padLoop` always suffices: the result of
`padBitstring` genuinely fails the `while` guard, so the fuel encoding agrees
with the source's unbounded loop. -/
theorem padBitstring_exits (n : ℕ) (s : String) :
    ¬ (padBitstring n s).length * (padBitstring n s).length < n :=
  padLoop_exits n n s (Nat.le_add_right n s.length)

theorem float_info_min_pos : (0:ℚ) < float_info_min := by
  rw [float_info_min]; positivity

theorem float_info_min_le : float_info_min ≤ 1 - 1/10^9 := by
  rw [float_info_min]
  rw [div_le_iff₀ (by positivity)]
  nlinarith [pow_le_pow_right₀ (by norm_num : (1:ℚ) ≤ 2) (by norm_num : 30 ≤ 1022),
    (by norm_num : (1 - 1/10^9 : ℚ) * 2^30 ≥ 1)]

theorem is_normalized_bound {d : DistDict} (h : is_normalized d = true) :
    |sumValues d - 1| ≤ 1/10^9 * max |sumValues d| 1 := by
  simpa [is_normalized, isclose] using h

/-- A mapping passing the `math.isclose(sum, 1)` check has a sum within the
relative tolerance of `1`. -/
theorem is_normalized_sum_ge {d : DistDict} (h : is_normalized d = true) :
    1 - 1/10^9 ≤ sumValues d := by
  have hb := is_normalized_bound h
  set S := sumValues d with hS
  rcases le_or_lt (|S|) 1 with h1 | h1
  · rw [max_eq_right h1] at hb
    have := abs_le.mp hb
    linarith [this.1]
  · rw [max_eq_left h1.le] at hb
    rcases le_or_lt 0 S with h2 | h2
    · rw [abs_of_nonneg h2] at h1
      linarith
    · rw [abs_of_neg h2] at hb h1
      have := abs_le.mp hb
      nlinarith [this.1]

theorem is_normalized_sum_pos {d : DistDict} (h : is_normalized d = true) :
    0 < sumValues d := by
  have := is_normalized_sum_ge h
  nlinarith

theorem isclose_self (v : ℚ) : isclose v v = true := by
  simp only [isclose, decide_eq_true_eq, sub_self, abs_zero]
  positivity

/-- Rescaling by the reciprocal of a sum that `math.isclose`-equals `1`
moves each value by no more than the `isclose` tolerance. -/
theorem isclose_scale (S v : ℚ) (hpos : 0 < S) (hb : |S - 1| ≤ 1/10^9 * max |S| 1) :
    isclose (v * (1 / S)) v = true := by
  simp only [isclose, decide_eq_true_eq]
  have e1 : v * (1 / S) - v = v * ((1 - S) / S) := by field_simp; ring
  have e2 : |v * (1 / S)| = |v| * (1 / S) := by
    rw [abs_mul, abs_of_pos (by positivity : (0:ℚ) < 1 / S)]
  rw [e1, abs_mul, e2]
  have e3 : max (|v| * (1 / S)) |v| = |v| * max (1 / S) 1 := by
    rw [mul_max_of_nonneg _ _ (abs_nonneg v), mul_one]
  rw [e3]
  have core : |(1 - S) / S| ≤ 1/10^9 * max (1 / S) 1 := by
    rw [abs_div, abs_of_pos hpos, div_le_iff₀ hpos, mul_assoc]
    have hmax : max (1 / S) 1 * S = max 1 S := by
      rw [max_mul_of_nonneg _ _ hpos.le, one_div, inv_mul_cancel₀ hpos.ne', one_mul]
    rw [hmax, abs_sub_comm]
    calc |S - 1| ≤ 1/10^9 * max |S| 1 := hb
      _ = 1/10^9 * max 1 S := by rw [abs_of_pos hpos, max_comm]
  calc |v| * |(1 - S) / S| ≤ |v| * (1/10^9 * max (1 / S) 1) :=
        mul_le_mul_of_nonneg_left core (abs_nonneg v)
    _ = 1/10^9 * (|v| * max (1 / S) 1) := by ring

/-- Dividing every value of a mapping by its (nonzero) value-sum produces a
mapping whose value-sum is exactly `1`. -/
theorem sumValues_map_scale (d : DistDict) (hne : sumValues d ≠ 0) :
    sumValues (d.map (fun p => (p.1, p.2 * (1 / sumValues d)))) = 1 := by
  set S := sumValues d with hS
  rw [sumValues, List.map_map]
  have e : (Prod.snd ∘ fun p : String × ℚ => (p.1, p.2 * (1 / S)))
      = fun p : String × ℚ => p.2 * (1 / S) := rfl
  rw [e, List.sum_map_mul_right]
  show sumValues d * (1 / S) = 1
  rw [← hS]
  field_simp

theorem foldl_add_eq_sum (g : String → ℝ) : ∀ (l : List String) (a : ℝ),
    l.foldl (fun v k => v + g k) a = a + (l.map g).sum := by
  intro l
  induction l with
  | nil => simp
  | cons x xs ih =>
      intro a
      rw [List.foldl_cons, ih, List.map_cons, List.sum_cons]
      ring

theorem dedup_toFinset (l : List String) : l.dedup.toFinset = l.toFinset :=
  List.toFinset.ext (fun _ => List.mem_dedup)

theorem list_sum_nonpos : ∀ {l : List ℝ}, (∀ x ∈ l, x ≤ 0) → l.sum ≤ 0
  | [], _ => by simp
  | x :: xs, h => by
      rw [List.sum_cons]
      have h1 := h x (List.mem_cons_self x xs)
      have h2 := list_sum_nonpos (fun y hy => h y (List.mem_cons_of_mem x hy))
      linarith

theorem dget_nonneg {d : DistDict} (h : ∀ p ∈ d, 0 ≤ p.2) (k : String) : 0 ≤ dget d k := by
  rw [dget]
  cases hf : d.find? (fun p => p.1 == k) with
  | none => simp
  | some p => exact h p (List.mem_of_find?_eq_some hf)

/-- In a mapping with non-negative values, any single looked-up value is at
most the value-sum. -/
theorem dget_le_sum {d : DistDict} (h : ∀ p ∈ d, 0 ≤ p.2) (k : String) :
    dget d k ≤ sumValues d := by
  rw [dget]
  cases hf : d.find? (fun p => p.1 == k) with
  | none =>
      simp only
      rw [sumValues]
      exact List.sum_nonneg (fun x hx => by
        obtain ⟨p, hp, rfl⟩ := List.mem_map.mp hx
        exact h p hp)
  | some p =>
      have hp := List.mem_of_find?_eq_some hf
      exact List.single_le_sum (fun x hx => by
          obtain ⟨q, hq, rfl⟩ := List.mem_map.mp hx
          exact h q hq) _ (List.mem_map_of_mem Prod.snd hp)

theorem mem_firstOccurrencesAux :
    ∀ (l seen : List String) (a : String),
      a ∈ firstOccurrencesAux l seen ↔ (a ∈ l ∧ a ∉ seen) := by
  intro l
  induction l with
  | nil => intro seen a; simp [firstOccurrencesAux]
  | cons x xs ih =>
      intro seen a
      rw [firstOccurrencesAux]
      split_ifs with hx
      · rw [ih]
        constructor
        · rintro ⟨h1, h2⟩
          exact ⟨List.mem_cons_of_mem x h1, h2⟩
        · rintro ⟨h1, h2⟩
          rcases List.mem_cons.mp h1 with rfl | h1
          · exact absurd hx h2
          · exact ⟨h1, h2⟩
      · constructor
        · intro h
          rcases List.mem_cons.mp h with rfl | h
          · exact ⟨List.mem_cons_self a xs, hx⟩
          · obtain ⟨h1, h2⟩ := (ih (x :: seen) a).mp h
            exact ⟨List.mem_cons_of_mem x h1,
              fun hc => h2 (List.mem_cons_of_mem x hc)⟩
        · rintro ⟨h1, h2⟩
          rcases List.mem_cons.mp h1 with rfl | h1
          · exact List.mem_cons_self a _
          · by_cases hax : a = x
            · subst hax; exact List.mem_cons_self a _
            · refine List.mem_cons_of_mem x ((ih (x :: seen) a).mpr ⟨h1, ?_⟩)
              intro hc
              rcases List.mem_cons.mp hc with h | h
              · exact hax h
              · exact h2 h

theorem nodup_firstOccurrencesAux :
    ∀ (l seen : List String), (firstOccurrencesAux l seen).Nodup := by
  intro l
  induction l with
  | nil => intro seen; simp [firstOccurrencesAux]
  | cons x xs ih =>
      intro seen
      rw [firstOccurrencesAux]
      split_ifs with hx
      · exact ih seen
      · refine List.nodup_cons.mpr ⟨?_, ih (x :: seen)⟩
        intro hc
        exact ((mem_firstOccurrencesAux xs (x :: seen) x).mp hc).2 (List.mem_cons_self x seen)

theorem nodup_firstOccurrences (l : List String) : (firstOccurrences l).Nodup :=
  nodup_firstOccurrencesAux l []

theorem mem_firstOccurrences (l : List String) (a : String) :
    a ∈ firstOccurrences l ↔ a ∈ l := by
  rw [firstOccurrences, mem_firstOccurrencesAux]
  simp

theorem firstOccurrences_toFinset (l : List String) :
    (firstOccurrences l).toFinset = l.toFinset :=
  List.toFinset.ext (fun a => mem_firstOccurrences l a)

/-- The multiplicities of the distinct elements of a list sum to its length:
a `Counter` tally conserves the sample count. -/
theorem sum_count_firstOccurrences (l : List String) :
    ((firstOccurrences l).map (fun k => l.count k)).sum = l.length := by
  rw [← List.sum_toFinset _ (nodup_firstOccurrences l), firstOccurrences_toFinset]
  exact List.sum_toFinset_count_eq_length l

theorem string_mk_length (cs : List Char) : (String.mk cs).length = cs.length := rfl

theorem tuple_to_bitstring_length (t : List ℕ) :
    (tuple_to_bitstring t).length = t.length := by
  rw [tuple_to_bitstring, string_mk_length, List.length_map]

theorem tuple_to_bitstring_binary (t : List ℕ) :
    (tuple_to_bitstring t).data.all (fun c => c == '1' || c == '0') = true := by
  rw [tuple_to_bitstring]
  show (t.map (fun b => if b = 0 then '0' else '1')).all (fun c => c == '1' || c == '0') = true
  rw [List.all_eq_true]
  intro c hc
  obtain ⟨b, hb, rfl⟩ := List.mem_map.mp hc
  by_cases h : b = 0 <;> simp [h]

theorem counterDict_keys (l : List String) :
    (counterDict l).map Prod.fst = firstOccurrences l := by
  rw [counterDict, List.map_map,
    show (Prod.fst ∘ fun k => (k, (l.count k : ℚ))) = id from rfl, List.map_id]

/-- On a value-sum at least `float_info_min` and different from `1`, the
normalization routine takes its final branch and rescales every value. -/
theorem normalize_eq_scale (d : DistDict) (hmin : float_info_min ≤ sumValues d)
    (hne : sumValues d ≠ 1) :
    normalize_bitstring_distribution d
      = .ok (d.map (fun p => (p.1, p.2 * (1 / sumValues d)))) := by
  have hpos : 0 < sumValues d := lt_of_lt_of_le float_info_min_pos hmin
  have h1 : ¬(0 < sumValues d ∧ sumValues d < float_info_min) :=
    fun hc => absurd hc.2 (not_lt.mpr hmin)
  simp only [normalize_bitstring_distribution]
  split_ifs <;> first | rfl | (exfalso; simp_all)

/-! ## Claim theorems -/

/-- C1: the claim says every key produced by
`create_bitstring_distribution_from_probability_distribution` on a vector of
length `2^L` has length exactly `L = round(log2(len(probs)))`.  The code
instead pads keys while shorter than `sqrt(len(probs))`.  On the power-of-two
input `[1/2, 1/2]` (so `L = 1`) the code succeeds and produces the keys
`"00"` and `"10"`, both of length `2 ≠ 1`: the spec describes the intended
`log2` behavior and the code's square root is the slip the spec itself flags
as a latent inconsistency. -/
theorem C1_create_from_probability_key_length_bug :
    create_bitstring_distribution_from_probability_distribution [1/2, 1/2]
      = .ok [("00", 1/2), ("10", 1/2)] ∧
    ("00" : String).length ≠ 1 ∧ ("10" : String).length ≠ 1 := by
  refine ⟨?_, by decide, by decide⟩
  rw [create_bitstring_distribution_from_probability_distribution]
  have h1 : fromPairs (([(1:ℚ)/2, 1/2]).enum.map (fun sp =>
      (strReverse (padBitstring ([(1:ℚ)/2, 1/2]).length (format_b sp.1)), sp.2)))
      = [("00", 1/2), ("10", 1/2)] := rfl
  rw [h1]
  have h3 : ("10".length == "00".length) = true := by decide
  norm_num [bitstringDistributionInit, is_bitstring_distribution, is_non_negative,
    is_key_length_fixed, are_keys_binary_strings, is_normalized, isclose, sumValues,
    normalize_bitstring_distribution, float_info_min, h3]

/-- C2 counterexample: the claim says constructing from the empty mapping
fails with `InvalidDistributionError` and no other kind of failure; in the
code `is_key_length_fixed` evaluates `list(input_dict.keys())[0]` on the
empty dict and raises a raw `IndexError` before the well-formedness
`RuntimeError` can be reached. -/
theorem C2_empty_init_not_invalid_distribution :
    bitstringDistributionInit [] true ≠ .error .invalidDistribution := by
  decide

/-- C2 amended: constructing a `BitstringDistribution` from the empty mapping
fails for either value of the `normalize` flag, but with the `IndexError`
raised by `is_key_length_fixed` reading the first key, not with the
`InvalidDistributionError` well-formedness failure. -/
theorem C2_empty_init_index_error :
    ∀ (normalize : Bool), bitstringDistributionInit [] normalize = .error .indexError := by
  intro b
  cases b <;> decide

/-- C8: the claim says `create_bitstring_distribution_from_probability_distribution`
fails on every input whose length is not an exact power of two.  The code
performs no such validation: on the length-3 input `[1/2, 3/10, 1/5]` it
succeeds and returns a distribution (with keys padded to
`ceil(sqrt(3)) = 2` characters), contradicting the spec's explicit
requirement. -/
theorem C8_create_from_probability_no_power_of_two_check :
    create_bitstring_distribution_from_probability_distribution [1/2, 3/10, 1/5]
      = .ok [("00", 1/2), ("10", 3/10), ("01", 1/5)] := by
  rw [create_bitstring_distribution_from_probability_distribution]
  have h1 : fromPairs (([(1:ℚ)/2, 3/10, 1/5]).enum.map (fun sp =>
      (strReverse (padBitstring ([(1:ℚ)/2, 3/10, 1/5]).length (format_b sp.1)), sp.2)))
      = [("00", 1/2), ("10", 3/10), ("01", 1/5)] := rfl
  rw [h1]
  have h3 : ("10".length == "00".length) = true := by decide
  have h4 : ("01".length == "00".length) = true := by decide
  norm_num [bitstringDistributionInit, is_bitstring_distribution, is_non_negative,
    is_key_length_fixed, are_keys_binary_strings, is_normalized, isclose, sumValues,
    normalize_bitstring_distribution, float_info_min, h3, h4]

/-- C4: `normalize_bitstring_distribution` fails with the EmptyDistribution
kind exactly when the value-sum is `0`, and with the DegenerateDistribution
kind exactly when the sum is strictly between `0` and `sys.float_info.min`;
an error return carries no modified mapping. -/
theorem C4_normalize_error_kinds (d : DistDict) :
    (normalize_bitstring_distribution d = .error .emptyDistribution ↔ sumValues d = 0) ∧
    (normalize_bitstring_distribution d = .error .degenerateDistribution ↔
      0 < sumValues d ∧ sumValues d < float_info_min) := by
  simp only [normalize_bitstring_distribution]
  split_ifs with h0 h1 h2 <;> simp_all

/-- C4 witness: a zero-sum mapping fails as EmptyDistribution and a mapping
summing to `float_info_min / 2` fails as DegenerateDistribution. -/
theorem C4_normalize_error_kinds_witness :
    normalize_bitstring_distribution [("0", 0)] = .error .emptyDistribution ∧
    normalize_bitstring_distribution [("0", float_info_min / 2)]
      = .error .degenerateDistribution := by
  constructor
  · exact (C4_normalize_error_kinds [("0", 0)]).1.mpr (by norm_num [sumValues])
  · refine (C4_normalize_error_kinds [("0", float_info_min / 2)]).2.mpr ?_
    constructor
    · norm_num [sumValues, float_info_min]
    · norm_num [sumValues, float_info_min]

/-- C6: on a value-sum that is at least `sys.float_info.min` and different
from `1`, normalization returns the mapping with every value multiplied by
the reciprocal of the sum, the key list unchanged, and the result passing
`is_normalized`; in particular `{"00": 2, "01": 2}` normalizes to
`{"00": 0.5, "01": 0.5}`. -/
theorem C6_normalize_divides_by_sum :
    (∀ d : DistDict, float_info_min ≤ sumValues d → sumValues d ≠ 1 →
      normalize_bitstring_distribution d
          = .ok (d.map (fun p => (p.1, p.2 * (1 / sumValues d)))) ∧
        (d.map (fun p => (p.1, p.2 * (1 / sumValues d)))).map Prod.fst = d.map Prod.fst ∧
        is_normalized (d.map (fun p => (p.1, p.2 * (1 / sumValues d)))) = true) ∧
    normalize_bitstring_distribution [("00", 2), ("01", 2)] = .ok [("00", 1/2), ("01", 1/2)] := by
  constructor
  · intro d hmin hne
    have hpos : 0 < sumValues d := lt_of_lt_of_le float_info_min_pos hmin
    have h1 : ¬(0 < sumValues d ∧ sumValues d < float_info_min) :=
      fun hc => absurd hc.2 (not_lt.mpr hmin)
    refine ⟨normalize_eq_scale d hmin hne, ?_, ?_⟩
    · simp [List.map_map, Function.comp]
    · rw [is_normalized, sumValues_map_scale d hpos.ne']
      norm_num [isclose]
  · norm_num [normalize_bitstring_distribution, sumValues, float_info_min]

/-- C6 witness: the general statement applied to the concrete mapping
`{"00": 2, "01": 2}`, whose sum `4` satisfies both hypotheses. -/
theorem C6_normalize_divides_by_sum_witness :
    float_info_min ≤ sumValues [("00", 2), ("01", 2)] ∧
    sumValues [("00", 2), ("01", 2)] ≠ 1 ∧
    normalize_bitstring_distribution [("00", 2), ("01", 2)]
      = .ok ([("00", (2:ℚ)), ("01", 2)].map
          (fun p => (p.1, p.2 * (1 / sumValues [("00", 2), ("01", 2)])))) := by
  have h1 : float_info_min ≤ sumValues [("00", 2), ("01", 2)] := by
    norm_num [sumValues, float_info_min]
  have h2 : sumValues [("00", (2:ℚ)), ("01", 2)] ≠ 1 := by norm_num [sumValues]
  exact ⟨h1, h2, (C6_normalize_divides_by_sum.1 _ h1 h2).1⟩

/-- C7: normalizing an already-`is_normalized` mapping succeeds, keeps every
key, moves every value by no more than the `isclose` tolerance, leaves the
result `is_normalized`, and is a strict no-op when the sum is exactly `1`. -/
theorem C7_normalize_idempotent :
    ∀ d : DistDict, is_normalized d = true →
      (∃ d', normalize_bitstring_distribution d = .ok d' ∧
        List.Forall₂ (fun p q : String × ℚ => p.1 = q.1 ∧ isclose p.2 q.2 = true) d' d ∧
        is_normalized d' = true) ∧
      (sumValues d = 1 → normalize_bitstring_distribution d = .ok d) := by
  intro d h
  have hb := is_normalized_bound h
  have hge := is_normalized_sum_ge h
  have hpos := is_normalized_sum_pos h
  have hnotdeg : ¬(0 < sumValues d ∧ sumValues d < float_info_min) := by
    rintro ⟨-, hc⟩
    have := float_info_min_le
    linarith
  by_cases h2 : sumValues d = 1
  · have heq : normalize_bitstring_distribution d = .ok d := by
      simp only [normalize_bitstring_distribution]
      split_ifs <;> first | rfl | (exfalso; simp_all)
    refine ⟨⟨d, heq, ?_, h⟩, fun _ => heq⟩
    rw [List.forall₂_same]
    exact fun p _ => ⟨rfl, isclose_self p.2⟩
  · have heq : normalize_bitstring_distribution d
        = .ok (d.map (fun p => (p.1, p.2 * (1 / sumValues d)))) := by
      simp only [normalize_bitstring_distribution]
      split_ifs <;> first | rfl | (exfalso; simp_all)
    refine ⟨⟨_, heq, ?_, ?_⟩, fun hc => absurd hc h2⟩
    · rw [List.forall₂_map_left_iff, List.forall₂_same]
      exact fun p _ => ⟨rfl, isclose_scale (sumValues d) p.2 hpos hb⟩
    · rw [is_normalized, sumValues_map_scale d hpos.ne']
      norm_num [isclose]

/-- C7 witness: the idempotence statement applied to the already-normalized
mapping `{"0": 1}`. -/
theorem C7_normalize_idempotent_witness :
    is_normalized [("0", (1:ℚ))] = true ∧
    ((∃ d', normalize_bitstring_distribution [("0", (1:ℚ))] = .ok d' ∧
        List.Forall₂ (fun p q : String × ℚ => p.1 = q.1 ∧ isclose p.2 q.2 = true)
          d' [("0", (1:ℚ))] ∧
        is_normalized d' = true) ∧
      (sumValues [("0", (1:ℚ))] = 1 →
        normalize_bitstring_distribution [("0", (1:ℚ))] = .ok [("0", (1:ℚ))])) := by
  have h : is_normalized [("0", (1:ℚ))] = true := by
    norm_num [is_normalized, isclose, sumValues]
  exact ⟨h, C7_normalize_idempotent _ h⟩

/-- C3: `compute_clipped_negative_log_likelihood` equals the negation of the
sum, over the union of the two key sets, of
`target[k] * ln(max(epsilon, measured.get(k, 0)))` with missing keys
defaulting to `0`; and on target `{"00": 1}`, measured
`{"00": 0.5, "01": 0.5}` with the default `epsilon = 1e-9` it equals
`ln 2`. -/
theorem C3_clipped_negative_log_likelihood_formula :
    (∀ (t m : DistDict) (ε : ℝ), compute_clipped_negative_log_likelihood t m ε
        = -∑ k in ((t.map Prod.fst).toFinset ∪ (m.map Prod.fst).toFinset),
            (dget t k : ℝ) * Real.log (max ε (dget m k : ℝ))) ∧
    compute_clipped_negative_log_likelihood [("00", 1)] [("00", 1/2), ("01", 1/2)] (1/10^9)
      = Real.log 2 := by
  constructor
  · intro t m ε
    rw [compute_clipped_negative_log_likelihood, foldl_add_eq_sum, zero_add]
    congr 1
    rw [all_keys, ← List.toFinset_append, ← dedup_toFinset]
    exact (List.sum_toFinset _ (List.nodup_dedup _)).symm
  · have hkeys : all_keys [("00", (1:ℚ))] [("00", (1:ℚ)/2), ("01", 1/2)] = ["00", "01"] := by
      simp [all_keys]
    rw [compute_clipped_negative_log_likelihood, hkeys]
    have d1 : dget [("00", (1:ℚ))] "00" = 1 := by simp [dget, List.find?]
    have d2 : dget [("00", (1:ℚ))] "01" = 0 := by simp [dget, List.find?]
    have d3 : dget [("00", (1:ℚ)/2), ("01", 1/2)] "00" = 1/2 := by simp [dget, List.find?]
    simp only [List.foldl_cons, List.foldl_nil, d1, d2, d3]
    have hmax : max ((1:ℝ)/10^9) (((1:ℚ)/2 : ℚ) : ℝ) = 1/2 := by
      push_cast
      rw [max_eq_right]
      norm_num
    rw [hmax]
    push_cast
    rw [show ((1:ℝ)/2) = 2⁻¹ by norm_num, Real.log_inv]
    ring

/-- C5: the distance evaluator raises `TypeMismatchError` when an argument is
not a `BitstringDistribution`, `DomainMismatchError` on differing qubit
numbers, `NormalizationMismatchError` when exactly one input is normalized,
and `UnsupportedStrategyError` on an unrecognized measure name; each failure
returns no partial result. -/
theorem C5_evaluate_distance_errors :
    (∀ (x y : PyObj) (s : String) (ε : ℝ), (x = .nonBsd ∨ y = .nonBsd) →
        evaluate_distribution_distance x y s ε = .error .typeMismatch) ∧
    (∀ (t m : DistDict) (s : String) (ε : ℝ), get_qubits_number t ≠ get_qubits_number m →
        evaluate_distribution_distance (.bsd t) (.bsd m) s ε = .error .domainMismatch) ∧
    (∀ (t m : DistDict) (s : String) (ε : ℝ), get_qubits_number t = get_qubits_number m →
        is_normalized t ≠ is_normalized m →
        evaluate_distribution_distance (.bsd t) (.bsd m) s ε = .error .normalizationMismatch) ∧
    (∀ (t m : DistDict) (s : String) (ε : ℝ), get_qubits_number t = get_qubits_number m →
        is_normalized t = is_normalized m → s ≠ "clipped_log_likelihood" →
        evaluate_distribution_distance (.bsd t) (.bsd m) s ε = .error .unsupportedStrategy) := by
  refine ⟨?_, ?_, ?_, ?_⟩
  · rintro x y s ε (rfl | rfl)
    · rfl
    · cases x <;> rfl
  · intro t m s ε h
    simp [evaluate_distribution_distance, h]
  · intro t m s ε h1 h2
    simp [evaluate_distribution_distance, h1, h2]
  · intro t m s ε h1 h2 h3
    simp [evaluate_distribution_distance, h1, h2, h3]

/-- C5 witness: each precondition violation exhibited on a concrete call,
including the spec's 2-bit versus 3-bit `DomainMismatchError` example and
an unrecognized strategy name. -/
theorem C5_evaluate_distance_errors_witness :
    evaluate_distribution_distance .nonBsd (.bsd [("0", 1)]) "clipped_log_likelihood" 1
      = .error .typeMismatch ∧
    evaluate_distribution_distance (.bsd [("00", 1)]) (.bsd [("000", 1)])
      "clipped_log_likelihood" 1 = .error .domainMismatch ∧
    evaluate_distribution_distance (.bsd [("0", 1)]) (.bsd [("0", 2)])
      "clipped_log_likelihood" 1 = .error .normalizationMismatch ∧
    evaluate_distribution_distance (.bsd [("0", 1)]) (.bsd [("0", 1)]) "mmd" 1
      = .error .unsupportedStrategy := by
  refine ⟨?_, ?_, ?_, ?_⟩
  · exact C5_evaluate_distance_errors.1 _ _ _ _ (Or.inl rfl)
  · exact C5_evaluate_distance_errors.2.1 _ _ _ _ (by decide)
  · refine C5_evaluate_distance_errors.2.2.1 _ _ _ _ (by decide) ?_
    have h1 : is_normalized [("0", (1:ℚ))] = true := by
      norm_num [is_normalized, isclose, sumValues]
    have h2 : is_normalized [("0", (2:ℚ))] = false := by
      norm_num [is_normalized, isclose, sumValues]
    rw [h1, h2]
    simp
  · exact C5_evaluate_distance_errors.2.2.2 _ _ _ _ rfl rfl (by decide)

/-- C9: `create_bitstring_distribution_from_measurements` tallies the sample
bitstrings by exact counting and, with the default `normalize=True`, assigns
each observed bitstring its count divided by the number of samples; in
particular `[(0,0), (0,0), (1,1)]` yields `{"00": 2/3, "11": 1/3}`. -/
theorem C9_create_from_measurements_counts :
    (∀ (measurements : List (List ℕ)) (L : ℕ), measurements ≠ [] →
      (∀ t ∈ measurements, t.length = L) →
      ∃ d, create_bitstring_distribution_from_measurements measurements = .ok d ∧
        d.map Prod.fst = firstOccurrences (convert_tuples_to_bitstrings measurements) ∧
        ∀ p ∈ d, p.2 = ((convert_tuples_to_bitstrings measurements).count p.1 : ℚ)
            / measurements.length) ∧
    create_bitstring_distribution_from_measurements [[0,0],[0,0],[1,1]]
      = .ok [("00", 2/3), ("11", 1/3)] := by
  constructor
  · intro measurements L hne hlen
    have hstrs_len : (convert_tuples_to_bitstrings measurements).length
        = measurements.length := by
      rw [convert_tuples_to_bitstrings, List.length_map]
    set strs := convert_tuples_to_bitstrings measurements with hstrs
    have hkeymem : ∀ k ∈ firstOccurrences strs, k.length = L := by
      intro k hk
      have hmem := (mem_firstOccurrences strs k).mp hk
      rw [hstrs, convert_tuples_to_bitstrings] at hmem
      obtain ⟨t, ht, rfl⟩ := List.mem_map.mp hmem
      rw [tuple_to_bitstring_length]
      exact hlen t ht
    have hstrs_ne : strs ≠ [] := by
      intro hc
      apply hne
      rwa [hstrs, convert_tuples_to_bitstrings, List.map_eq_nil_iff] at hc
    have hfo_ne : firstOccurrences strs ≠ [] := by
      obtain ⟨s0, srest, hs⟩ := List.exists_cons_of_ne_nil hstrs_ne
      exact List.ne_nil_of_mem
        ((mem_firstOccurrences strs s0).mpr (hs ▸ List.mem_cons_self s0 srest))
    have hnn : is_non_negative (counterDict strs) = true := by
      rw [is_non_negative, List.all_eq_true]
      intro p hp
      rw [counterDict] at hp
      obtain ⟨k, hk, rfl⟩ := List.mem_map.mp hp
      simp
    have hbin : are_keys_binary_strings (counterDict strs) = true := by
      rw [are_keys_binary_strings, List.all_eq_true]
      intro p hp
      rw [counterDict] at hp
      obtain ⟨k, hk, rfl⟩ := List.mem_map.mp hp
      have hmem := (mem_firstOccurrences strs k).mp hk
      rw [hstrs, convert_tuples_to_bitstrings] at hmem
      obtain ⟨t, ht, rfl⟩ := List.mem_map.mp hmem
      exact tuple_to_bitstring_binary t
    have hklf : is_key_length_fixed (counterDict strs) = .ok true := by
      obtain ⟨k0, krest, hfo⟩ := List.exists_cons_of_ne_nil hfo_ne
      have hk0 : k0.length = L := hkeymem k0 (hfo ▸ List.mem_cons_self k0 krest)
      rw [counterDict, hfo, List.map_cons, is_key_length_fixed]
      congr 1
      rw [List.all_eq_true]
      intro p hp
      rcases List.mem_cons.mp hp with rfl | hp
      · simp
      · obtain ⟨k, hk, rfl⟩ := List.mem_map.mp hp
        have hkL : k.length = L := hkeymem k (hfo ▸ List.mem_cons_of_mem k0 hk)
        simp [hkL, hk0]
    have hbsd : is_bitstring_distribution (counterDict strs) = .ok true := by
      rw [is_bitstring_distribution, hnn, if_pos rfl, hklf, hbin]
      rfl
    have hsum : sumValues (counterDict strs) = (measurements.length : ℚ) := by
      rw [sumValues, counterDict, List.map_map,
        show (Prod.snd ∘ fun k => (k, (strs.count k : ℚ)))
          = fun k => ((strs.count k : ℕ) : ℚ) from rfl]
      rw [show (fun k => ((strs.count k : ℕ) : ℚ))
          = (fun n : ℕ => (n : ℚ)) ∘ (fun k => strs.count k) from rfl, ← List.map_map]
      rw [← Nat.cast_list_sum, sum_count_firstOccurrences, hstrs_len]
    have hN1 : 1 ≤ measurements.length := List.length_pos.mpr hne
    rcases eq_or_lt_of_le hN1 with h1 | h2
    · have hnorm : is_normalized (counterDict strs) = true := by
        rw [is_normalized, hsum, ← h1]
        norm_num [isclose]
      have hinit : bitstringDistributionInit (counterDict strs) true
          = .ok (counterDict strs) := by
        rw [bitstringDistributionInit, hbsd, hnorm, if_pos rfl]
      refine ⟨counterDict strs, ?_, counterDict_keys strs, ?_⟩
      · rw [create_bitstring_distribution_from_measurements, ← hstrs, hinit]
      · intro p hp
        rw [counterDict] at hp
        obtain ⟨k, hk, rfl⟩ := List.mem_map.mp hp
        rw [← h1]
        norm_num
    · have h2q : (2:ℚ) ≤ (measurements.length : ℚ) := by exact_mod_cast h2
      have hnotnorm : is_normalized (counterDict strs) = false := by
        rw [is_normalized, hsum, isclose, decide_eq_false_iff_not]
        intro hc
        rw [abs_of_nonneg (by linarith : (0:ℚ) ≤ (measurements.length : ℚ) - 1),
          abs_of_nonneg (by linarith : (0:ℚ) ≤ (measurements.length : ℚ)), abs_one,
          max_eq_left (by linarith : (1:ℚ) ≤ (measurements.length : ℚ))] at hc
        nlinarith
      have hmin : float_info_min ≤ sumValues (counterDict strs) := by
        rw [hsum]
        have := float_info_min_le
        linarith
      have hne1 : sumValues (counterDict strs) ≠ 1 := by
        rw [hsum]
        intro hc
        nlinarith
      have hinit : bitstringDistributionInit (counterDict strs) true
          = .ok ((counterDict strs).map
              (fun p => (p.1, p.2 * (1 / sumValues (counterDict strs))))) := by
        rw [bitstringDistributionInit, hbsd, hnotnorm, if_neg (by simp), if_pos rfl,
          normalize_eq_scale _ hmin hne1]
      refine ⟨(counterDict strs).map
          (fun p => (p.1, p.2 * (1 / sumValues (counterDict strs)))), ?_, ?_, ?_⟩
      · rw [create_bitstring_distribution_from_measurements, ← hstrs, hinit]
      · rw [List.map_map,
          show (Prod.fst ∘ fun p : String × ℚ =>
              (p.1, p.2 * (1 / sumValues (counterDict strs)))) = Prod.fst from rfl,
          counterDict_keys]
      · intro p hp
        obtain ⟨q, hq, rfl⟩ := List.mem_map.mp hp
        rw [counterDict] at hq
        obtain ⟨k, hk, rfl⟩ := List.mem_map.mp hq
        show (strs.count k : ℚ) * (1 / sumValues (counterDict strs)) = _
        rw [hsum, mul_one_div]
  · have h1 : convert_tuples_to_bitstrings [[0,0],[0,0],[1,1]] = ["00","00","11"] := by
      simp [convert_tuples_to_bitstrings, tuple_to_bitstring, String.ext_iff]
    have h2 : counterDict ["00","00","11"] = [("00", 2), ("11", 1)] := by
      simp only [counterDict, firstOccurrences, firstOccurrencesAux]
      simp [List.count, List.countP, List.countP.go]
    have h3 : ("11".length == "00".length) = true := by decide
    rw [create_bitstring_distribution_from_measurements, h1, h2]
    norm_num [bitstringDistributionInit, is_bitstring_distribution, is_non_negative,
      is_key_length_fixed, are_keys_binary_strings, is_normalized, isclose, sumValues,
      normalize_bitstring_distribution, float_info_min, h3]

/-- C9 witness: the counting statement applied to the three-sample input
`[(0,0), (0,0), (1,1)]` with `L = 2`. -/
theorem C9_create_from_measurements_counts_witness :
    ([[0,0],[0,0],[1,1]] : List (List ℕ)) ≠ [] ∧
    (∀ t ∈ ([[0,0],[0,0],[1,1]] : List (List ℕ)), t.length = 2) ∧
    (∃ d, create_bitstring_distribution_from_measurements [[0,0],[0,0],[1,1]] = .ok d ∧
      d.map Prod.fst = firstOccurrences (convert_tuples_to_bitstrings [[0,0],[0,0],[1,1]]) ∧
      ∀ p ∈ d, p.2 = ((convert_tuples_to_bitstrings [[0,0],[0,0],[1,1]]).count p.1 : ℚ)
          / ([[0,0],[0,0],[1,1]] : List (List ℕ)).length) := by
  have h1 : ([[0,0],[0,0],[1,1]] : List (List ℕ)) ≠ [] := by decide
  have h2 : ∀ t ∈ ([[0,0],[0,0],[1,1]] : List (List ℕ)), t.length = 2 := by decide
  exact ⟨h1, h2, C9_create_from_measurements_counts.1 _ 2 h1 h2⟩

/-- C10: for a target with non-negative weights, a measured distribution with
non-negative weights summing to exactly `1`, and `0 < epsilon ≤ 1`, the
clipped negative log-likelihood is non-negative: every measured weight is at
most `1`, so every logarithm term is non-positive. -/
theorem C10_clipped_negative_log_likelihood_nonneg
    (t m : DistDict) (ε : ℝ) (ht : ∀ p ∈ t, 0 ≤ p.2) (hm : ∀ p ∈ m, 0 ≤ p.2)
    (hsum : sumValues m = 1) (hε0 : 0 < ε) (hε1 : ε ≤ 1) :
    0 ≤ compute_clipped_negative_log_likelihood t m ε := by
  rw [compute_clipped_negative_log_likelihood, foldl_add_eq_sum, zero_add, neg_nonneg]
  apply list_sum_nonpos
  intro x hx
  obtain ⟨k, hk, rfl⟩ := List.mem_map.mp hx
  apply mul_nonpos_iff.mpr
  left
  constructor
  · exact_mod_cast dget_nonneg ht k
  · apply Real.log_nonpos
    · positivity
    · apply max_le hε1
      have h1 : dget m k ≤ 1 := hsum ▸ dget_le_sum hm k
      exact_mod_cast h1

/-- C10 witness: the bound applied at target `{"0": 1}`, measured `{"0": 1}`
and `epsilon = 1/2`. -/
theorem C10_clipped_negative_log_likelihood_nonneg_witness :
    (∀ p ∈ [("0", (1:ℚ))], 0 ≤ p.2) ∧ sumValues [("0", (1:ℚ))] = 1 ∧
    (0:ℝ) < 1/2 ∧ (1/2:ℝ) ≤ 1 ∧
    0 ≤ compute_clipped_negative_log_likelihood [("0", 1)] [("0", 1)] (1/2) := by
  have h1 : ∀ p ∈ [("0", (1:ℚ))], 0 ≤ p.2 := by
    intro p hp
    rcases List.mem_singleton.mp hp with rfl
    norm_num
  have h2 : sumValues [("0", (1:ℚ))] = 1 := by norm_num [sumValues]
  exact ⟨h1, h2, by norm_num, by norm_num,
    C10_clipped_negative_log_likelihood_nonneg _ _ _ h1 h1 h2 (by norm_num) (by norm_num)⟩

end ZQuantum
